import Mathlib

/-!
Verification development for the support-chat backend.

Definitions are shallow embeddings of the TypeScript sources:
* `takeRecentWithinTokenBudget` — backend/services/llm/tokenBudget.ts
* `allowRequest` — backend/services/rateLimit.ts
* `generateSupportReply` composition — backend/services/llm/supportAgent.ts
* `getRecentMessages` / `getOlderMessages` — backend/repos/chatRepo.ts
* `parseCursor` and the two route handlers — backend/routes/chatRoute.ts

JavaScript numbers that only ever hold non-negative integers (token counts,
millisecond clocks, limits) are modelled as `Nat`; `Math.ceil(n / 4)` on a
natural number is `(n + 3) / 4`.
-/

namespace SpurChat

/-! ### Chat turns and the context budgeter (tokenBudget.ts) -/

/-- Sender role of a message: the source union type of user and ai. -/
inductive Sender where
  | user
  | ai
deriving DecidableEq, BEq

/-- A channel-agnostic chat turn `{ role, content }` as consumed by
`takeRecentWithinTokenBudget` and `generateSupportReply`. -/
structure ChatTurn where
  role : Sender
  content : String
deriving DecidableEq

/-- Cost heuristic from tokenBudget.ts: `Math.ceil(m.content.length / 4)`. -/
def turnCost (m : ChatTurn) : Nat := (m.content.length + 3) / 4

/-- Total heuristic cost of a list of turns. -/
def sumCost (l : List ChatTurn) : Nat := (l.map turnCost).sum

/-- The loop body of `takeRecentWithinTokenBudget`: walk the turns, keeping a
running total `used`; `break` (return) at the first turn whose cost would push
the running total over `maxTokens`. -/
def takeAux (maxTokens used : Nat) : List ChatTurn → List ChatTurn × Nat
  | [] => ([], used)
  | m :: rest =>
    let tokens := turnCost m
    if maxTokens < used + tokens then ([], used)
    else
      let r := takeAux maxTokens (used + tokens) rest
      (m :: r.1, r.2)

/-- Function `takeRecentWithinTokenBudget` from tokenBudget.ts: returns
`{ selectedNewestToOldest, usedTokens }`, starting from `used = 0`. -/
def takeRecentWithinTokenBudget (maxTokens : Nat) (newestToOldest : List ChatTurn) :
    List ChatTurn × Nat :=
  takeAux maxTokens 0 newestToOldest

/-! ### generateSupportReply composition (supportAgent.ts) -/

/-- The candidate list built by `generateSupportReply`: the fresh user message
as the newest turn, followed by the provided history reversed
(user turn first, then the reversed history slice). -/
def buildNewestToOldest (historyOldestToNewest : List ChatTurn) (userMessage : String) :
    List ChatTurn :=
  ⟨Sender.user, userMessage⟩ :: historyOldestToNewest.reverse

/-- The budget used by `generateSupportReply`:
`Math.max(1, env.LLM_MAX_CONTEXT_TOKENS)`. -/
def supportReplyBudget (envMaxContextTokens : Nat) : Nat :=
  max 1 envMaxContextTokens

/-- The turn selection performed inside `generateSupportReply`. -/
def supportReplySelection (historyOldestToNewest : List ChatTurn) (userMessage : String)
    (envMaxContextTokens : Nat) : List ChatTurn × Nat :=
  takeRecentWithinTokenBudget (supportReplyBudget envMaxContextTokens)
    (buildNewestToOldest historyOldestToNewest userMessage)

/-! ### Rate limiter (rateLimit.ts) -/

/-- A rate-limit bucket: `{ count, resetAt }`. -/
structure Entry where
  count : Nat
  resetAt : Nat
deriving DecidableEq

/-- The process-local `buckets` map, keyed by string. -/
def Buckets : Type := String → Option Entry

/-- The empty `buckets` map at process start. -/
def emptyBuckets : Buckets := fun _ => none

/-- Operation `Map.set` on the buckets map. -/
def setBucket (b : Buckets) (key : String) (e : Entry) : Buckets :=
  fun k => if k = key then some e else b k

/-- Result shape of `allowRequest`: `{ allowed, retryAfterMs? }`. -/
structure AllowResult where
  allowed : Bool
  retryAfterMs : Option Nat
deriving DecidableEq

/-- Function `allowRequest` from rateLimit.ts, with `Date.now()` passed explicitly as
`now`.  Fresh key or elapsed window (`!entry || entry.resetAt <= now`): store
`{count: 1, resetAt: now + windowMs}` and allow.  At or above `max`: deny with
`retryAfterMs = entry.resetAt - now`.  Otherwise increment and allow. -/
def allowRequest (b : Buckets) (key : String) (windowMs maxReq now : Nat) :
    Buckets × AllowResult :=
  match b key with
  | none => (setBucket b key ⟨1, now + windowMs⟩, ⟨true, none⟩)
  | some entry =>
    if entry.resetAt ≤ now then
      (setBucket b key ⟨1, now + windowMs⟩, ⟨true, none⟩)
    else if maxReq ≤ entry.count then
      (b, ⟨false, some (entry.resetAt - now)⟩)
    else
      (setBucket b key ⟨entry.count + 1, entry.resetAt⟩, ⟨true, none⟩)

/-- A run of the limiter on one key: feed the request times in order, recording
for each request whether it was allowed and the bucket of the key after the call. -/
def runKey (windowMs maxReq : Nat) (key : String) (b : Buckets) :
    List Nat → List (Bool × Option Entry)
  | [] => []
  | t :: ts =>
    let p := allowRequest b key windowMs maxReq t
    (p.2.allowed, p.1 key) :: runKey windowMs maxReq key p.1 ts

/-- How many requests of a recorded run were allowed while the bucket of the key
carried the reset deadline `r` — i.e. allowed within the window instance
identified by `r`. -/
def countAllowedInWindow (trace : List (Bool × Option Entry)) (r : Nat) : Nat :=
  (trace.filter (fun s =>
    s.1 && match s.2 with
           | some e => e.resetAt == r
           | none => false)).length

/-! ### Message store (chatRepo.ts)

A row of the `messages` table.  Database UUIDs and timestamps are modelled as
`Nat` (the SQL comparisons used by the queries are order comparisons on
`(created_at, id)`). -/

/-- A `messages` row: `{ id, conversation_id, sender, text, created_at }`. -/
structure MsgRec where
  id : Nat
  conversationId : Nat
  sender : Sender
  text : String
  createdAt : Nat
deriving DecidableEq

/-- The canonical ordering key `(created_at, id)` of a message. -/
def mkey (m : MsgRec) : Nat × Nat := (m.createdAt, m.id)

/-- Strict lexicographic comparison on `(created_at, id)`, i.e. the SQL
row comparison `(created_at, id) < (cursor_ts, cursor_id)`. -/
def keyLt (a b : Nat × Nat) : Prop :=
  a.1 < b.1 ∨ (a.1 = b.1 ∧ a.2 < b.2)

instance (a b : Nat × Nat) : Decidable (keyLt a b) := by
  unfold keyLt
  infer_instance

/-- Ordering `ORDER BY created_at DESC, id DESC` as a relation: `m1` sorts no later
than `m2` in the descending output. -/
def descKey (m1 m2 : MsgRec) : Prop :=
  keyLt (mkey m2) (mkey m1) ∨ mkey m2 = mkey m1

instance (m1 m2 : MsgRec) : Decidable (descKey m1 m2) := by
  unfold descKey
  infer_instance

instance : IsTotal MsgRec descKey where
  total m1 m2 := by
    unfold descKey keyLt
    simp only [Prod.ext_iff]
    omega

instance : IsTrans MsgRec descKey where
  trans m1 m2 m3 h12 h23 := by
    unfold descKey keyLt at h12 h23 ⊢
    rcases h12 with (h | h) | h <;> rcases h23 with (h' | h') | h' <;>
      simp only [Prod.ext_iff] at * <;> omega

/-- The `ORDER BY created_at DESC, id DESC` result of a query. -/
def sortDesc (l : List MsgRec) : List MsgRec :=
  List.insertionSort descKey l

/-- Function `getRecentMessages` from chatRepo.ts: the conversation rows sorted
descending, `LIMIT limit`, then reversed to oldest→newest. -/
def getRecentMessages (store : List MsgRec) (cid limit : Nat) : List MsgRec :=
  ((sortDesc (store.filter (fun m => m.conversationId == cid))).take limit).reverse

/-- Function `getOlderMessages` from chatRepo.ts.  With `cursorId` present the query
keeps rows with `(created_at, id) < (cursorCreatedAt, cursorId)`; without it,
rows with `created_at < cursorCreatedAt`.  Both order descending, apply
`LIMIT`, and reverse to oldest→newest. -/
def getOlderMessages (store : List MsgRec) (cid : Nat) (cursorCreatedAt : Nat)
    (cursorId : Option Nat) (limit : Nat) : List MsgRec :=
  match cursorId with
  | some i =>
    ((sortDesc (store.filter (fun m =>
        m.conversationId == cid && decide (keyLt (mkey m) (cursorCreatedAt, i))))).take
          limit).reverse
  | none =>
    ((sortDesc (store.filter (fun m =>
        m.conversationId == cid && decide (m.createdAt < cursorCreatedAt)))).take
          limit).reverse

/-! ### History pagination (GET /history handler, chatRoute.ts) -/

/-- Truncate a millisecond timestamp to whole seconds. -/
def floorToSecond (t : Nat) : Nat := t / 1000 * 1000

/-- What the cursor string channel does to a `(created_at, id)` key.  The
handler builds the cursor as a template literal over `messages[0].created_at`
and `messages[0].id`; `created_at` is a pg `Date` at runtime, and template
interpolation renders it via `Date.prototype.toString`, which has
whole-second precision (the very format the parseCursor comment names).  On
the next request `parseCursor` re-normalizes that string through
`Date.parse` / `toISOString`.  The composition therefore floors the
millisecond timestamp to the second, while the uuid segment round-trips
unchanged. -/
def cursorRoundTrip (k : Nat × Nat) : Nat × Nat := (floorToSecond k.1, k.2)

/-- One call of the `/history` handler with an already-decoded cursor: fetch
the page and derive `nextCursor` from `messages[0]` (the oldest row of the
page), or `null` when the page is empty.  The returned cursor is the key the
emitted cursor STRING denotes after the encode/decode round trip, i.e. the
key of the oldest row with its timestamp floored to the second. -/
def historyPage (store : List MsgRec) (cid : Nat) (cursor : Option (Nat × Nat))
    (limit : Nat) : List MsgRec × Option (Nat × Nat) :=
  let messages :=
    match cursor with
    | some c => getOlderMessages store cid c.1 (some c.2) limit
    | none => getRecentMessages store cid limit
  (messages, messages.head?.map (fun m => cursorRoundTrip (mkey m)))

/-- The client loop of the pagination property: call `/history`, then keep
feeding back `nextCursor` until it is `null`, collecting the pages.  `fuel`
bounds the recursion; any value above the store size is enough. -/
def collectPages (store : List MsgRec) (cid limit : Nat) :
    Option (Nat × Nat) → Nat → List (List MsgRec)
  | _, 0 => []
  | cursor, fuel + 1 =>
    let p := historyPage store cid cursor limit
    match p.2 with
    | none => [p.1]
    | some c => p.1 :: collectPages store cid limit (some c) fuel

/-! ### JavaScript string primitives

`String.prototype.trim` and `String.prototype.split` are embedded as
structural recursions over the character list so that concrete instances
evaluate inside the kernel. -/

/-- JavaScript `s.trim()`: remove whitespace from both ends. -/
def jsTrim (s : String) : String :=
  ⟨((s.data.dropWhile Char.isWhitespace).reverse.dropWhile Char.isWhitespace).reverse⟩

/-- Accumulator loop for `s.split('|')`. -/
def splitPipeAux : List Char → List Char → List (List Char)
  | [], acc => [acc.reverse]
  | c :: cs, acc =>
    if c = '|' then acc.reverse :: splitPipeAux cs []
    else splitPipeAux cs (c :: acc)

/-- JavaScript split on the pipe character; an input without a pipe
yields the one-element list, and the empty string yields `[""]`. -/
def splitPipe (s : String) : List String :=
  (splitPipeAux s.data []).map (fun l => ⟨l⟩)

/-! ### Cursor decoding (parseCursor in chatRoute.ts)

`parseCursor` delegates timestamp recognition to two platform facilities —
the zod ISO-8601 check `z.string().datetime()` and the general engine
`Date.parse` / `Date.toISOString` — and id recognition to `z.string().uuid()`.
These platform validators are external collaborators; the model abstracts them
as the fields of a `DateLib`, and every theorem about `parseCursor` is proved
for an arbitrary `DateLib`. -/

/-- Platform string validators used by `parseCursor`:
`isoValid` models `z.string().datetime().safeParse(s).success`;
`dateParse` models `Date.parse` (`some ms` when the result is not `NaN`);
`toIsoString` models `new Date(ms).toISOString()`;
`uuidValid` models `z.string().uuid().safeParse(s).success`. -/
structure DateLib where
  isoValid : String → Bool
  dateParse : String → Option Int
  toIsoString : Int → String
  uuidValid : String → Bool

/-- The `toIso` helper of `parseCursor`: accept already-ISO strings as-is,
otherwise try broad date parsing and normalize to ISO-8601, otherwise fail. -/
def toIso (lib : DateLib) (raw : String) : Option String :=
  let trimmed := jsTrim raw
  if lib.isoValid trimmed then some trimmed
  else
    match lib.dateParse trimmed with
    | some ms => some (lib.toIsoString ms)
    | none => none

/-- Decoded cursor `{ createdAt, id? }`. -/
structure ParsedCursor where
  createdAt : String
  id : Option String
deriving DecidableEq

/-- Function `parseCursor` from chatRoute.ts.  The guard `if (!cursor) return null` is JavaScript
truthiness: both an absent cursor and the empty string short-circuit to `null`.
Then the cursor splits on `"|"`: one part is a bare timestamp; two parts are a
timestamp plus a uuid, re-validated with `z.object({datetime, uuid})` after
normalization; anything else is rejected. -/
def parseCursor (lib : DateLib) (cursor : Option String) : Option ParsedCursor :=
  match cursor with
  | none => none
  | some s =>
    if s = "" then none
    else
      match splitPipe s with
      | [p0] =>
        match toIso lib p0 with
        | some iso => some ⟨iso, none⟩
        | none => none
      | [p0, p1] =>
        match toIso lib p0 with
        | none => none
        | some iso =>
          let id := jsTrim p1
          if lib.isoValid iso && lib.uuidValid id then some ⟨iso, some id⟩
          else none
      | _ => none

/-- Outcome of the cursor-handling prologue of the `/history` handler. -/
inductive HistoryDecision where
  | invalid
  | recent
  | older (c : ParsedCursor)
deriving DecidableEq

/-- JavaScript truthiness of the `cursor` query parameter. -/
def cursorTruthy : Option String → Bool
  | none => false
  | some s => !(s == "")

/-- The cursor branch of the `/history` handler: on `cursor && !parsedCursor`
return a 400 invalid-request error; otherwise fetch via `getOlderMessages`
when a cursor was decoded and `getRecentMessages` when not. -/
def historyDecision (lib : DateLib) (cursor : Option String) : HistoryDecision :=
  let parsed := parseCursor lib cursor
  if cursorTruthy cursor && parsed.isNone then HistoryDecision.invalid
  else
    match parsed with
    | some c => HistoryDecision.older c
    | none => HistoryDecision.recent

/-! ### The POST /message flow (chatRoute.ts) -/

/-- An HTTP response, reduced to status code and the reply/error string. -/
structure Resp where
  status : Nat
  body : String
deriving DecidableEq

/-- The externally observable steps of the send flow, in call order. -/
inductive FlowEvent where
  | ensureConv
  | fetchRecent
  | insertUser
  | callLlm
  | insertAi
deriving DecidableEq, BEq

/-- Everything the send flow produced: the messages table afterwards, the
response, the ordered trace of store/LLM calls, and the exact arguments
`(history, userMessage)` passed to `generateSupportReply` (if reached). -/
structure FlowResult where
  store : List MsgRec
  response : Resp
  trace : List FlowEvent
  llmInput : Option (List ChatTurn × String)
deriving DecidableEq

/-- Fixed response strings of the send flow and its middleware. -/
def invalidRequestBody : String := "Invalid request"

/-- 400 body for a message that is empty after stripping invisible characters. -/
def emptyMessageBody : String := "Message is empty"

/-- 413 body for an over-long message. -/
def tooLongBody : String := "Message is too long"

/-- 502 body returned when the completion call fails. -/
def apologyBody : String :=
  "I\x27m sorry - I\x27m having trouble responding right now. Please try again in a moment."

/-- 429 body of the per-session limiter in rateLimitMiddleware.ts. -/
def rateLimitSessionBody : String :=
  "The system is overloaded. Please wait a moment before sending more messages."

/-- 429 body of the per-IP limiters in rateLimitMiddleware.ts. -/
def rateLimitIpBody : String :=
  "The system is overloaded. Please try again shortly."

/-- The invisible-character scrub of the handler: drop the characters of the
regex class U+200B..U+200F and U+FEFF from the message. -/
def stripInvisible (s : String) : String :=
  ⟨s.data.filter (fun c =>
    !(0x200B ≤ c.toNat && c.toNat ≤ 0x200F) && !(c.toNat == 0xFEFF))⟩

/-- Computation `cleanMessage`: strip invisible characters from the zod-trimmed message,
then trim again. -/
def cleanOf (s : String) : String := jsTrim (stripInvisible s)

/-- Map a stored row to a chat turn, as the handler does before calling
`generateSupportReply`. -/
def toTurn (m : MsgRec) : ChatTurn := ⟨m.sender, m.text⟩

/-- The POST /message handler after the rate-limit middleware.  `schemaOk`
models the non-message parts of the zod body check (field presence, uuid
session id); the zod `.trim().min(1)` on the message is explicit.  `userKey` and
`aiKey` are the `(created_at, id)` pairs `insertMessage` generates for the two
inserts; `llm` is the outcome of `generateSupportReply`.  The success path is
ensureConversation → getRecentMessages → insertMessage(user) → LLM →
insertMessage(ai); a completion failure is caught after the user insert and
answered with the fixed 502 apology. -/
def postMessage (pageSize maxChars : Nat) (store : List MsgRec) (schemaOk : Bool)
    (message : String) (cid : Nat) (userKey aiKey : Nat × Nat)
    (llm : Except Unit String) : FlowResult :=
  if schemaOk = false ∨ (jsTrim message).length = 0 then
    ⟨store, ⟨400, invalidRequestBody⟩, [], none⟩
  else
    let clean := cleanOf (jsTrim message)
    if clean.length = 0 then ⟨store, ⟨400, emptyMessageBody⟩, [], none⟩
    else if maxChars < clean.length then ⟨store, ⟨413, tooLongBody⟩, [], none⟩
    else
      let recent := getRecentMessages store cid pageSize
      let history := recent.map toTurn
      let store1 := store ++ [⟨userKey.2, cid, Sender.user, clean, userKey.1⟩]
      match llm with
      | Except.ok reply =>
        ⟨store1 ++ [⟨aiKey.2, cid, Sender.ai, reply, aiKey.1⟩], ⟨200, reply⟩,
          [FlowEvent.ensureConv, FlowEvent.fetchRecent, FlowEvent.insertUser,
            FlowEvent.callLlm, FlowEvent.insertAi],
          some (history, clean)⟩
      | Except.error _ =>
        ⟨store1, ⟨502, apologyBody⟩,
          [FlowEvent.ensureConv, FlowEvent.fetchRecent, FlowEvent.insertUser,
            FlowEvent.callLlm],
          some (history, clean)⟩

/-! ### Auxiliary definitions used by the statements and proofs -/

/-- Upper bound for the allowed-request count of window instance `r` in a run
that starts with bucket state `st`: the full limit for a window not yet opened,
the remaining allowance for the currently open window, and zero for an already
expired window (its reset deadline can never recur). -/
def windowBound (st : Option Entry) (r maxReq : Nat) : Nat :=
  match st with
  | none => maxReq
  | some e =>
    if e.resetAt = r then maxReq - e.count
    else if e.resetAt < r then maxReq
    else 0

/-- The set of rows a `/history` call reads before ordering and limiting:
the rows of the conversation, restricted to those strictly before the cursor when
one is given. -/
def convFilter (store : List MsgRec) (cid : Nat) (cursor : Option (Nat × Nat)) :
    List MsgRec :=
  match cursor with
  | none => store.filter (fun m => m.conversationId == cid)
  | some c => store.filter (fun m => m.conversationId == cid && decide (keyLt (mkey m) c))

/-- A single ISO-8601 string recognised by the test stand-in platform. -/
def sampleIso : String := "2025-12-28T17:52:34.000Z"

/-- A general-format date string (the engine-specific `Date.toString` shape)
recognised by the test stand-in platform. -/
def sampleLooseDate : String := "Sun Dec 28 2025 23:22:34 GMT+0530"

/-- A concrete stand-in `DateLib` used only to instantiate theorems on
concrete inputs: it recognises one ISO timestamp, one general-format
timestamp (normalising it to the ISO one), and one uuid. -/
def testDateLib : DateLib where
  isoValid s := s == sampleIso
  dateParse s := if s == sampleLooseDate then some 1766944354000 else none
  toIsoString _ := sampleIso
  uuidValid s := s == "123e4567-e89b-12d3-a456-426614174000"

/-- A three-message conversation with whole-second timestamps, used to
instantiate the lossless-channel pagination theorem. -/
def demoStore : List MsgRec :=
  [⟨1, 0, Sender.user, "a", 10000⟩, ⟨2, 0, Sender.ai, "b", 20000⟩,
    ⟨3, 0, Sender.user, "c", 30000⟩]

/-- A three-message conversation whose rows share the same wall-clock second
(timestamps 10100 ms, 10200 ms, 10300 ms): the shape of store that the lossy
cursor channel mishandles. -/
def gapDemoStore : List MsgRec :=
  [⟨1, 0, Sender.user, "a", 10100⟩, ⟨2, 0, Sender.ai, "b", 10200⟩,
    ⟨3, 0, Sender.user, "c", 10300⟩]

/-! ## Theorems -/

/-! ### ContextBudgeter -/

theorem sumCost_cons (m : ChatTurn) (l : List ChatTurn) :
    sumCost (m :: l) = turnCost m + sumCost l := by
  simp [sumCost]

/-- Workhorse lemma about the budgeter loop: the selection is the prefix of
the walk, the running total is the sum of the selected costs, the total never
exceeds the budget, and the walk stops exactly at a turn that would overflow. -/
theorem takeAux_spec (maxTokens : Nat) (l : List ChatTurn) :
    ∀ used : Nat,
      (takeAux maxTokens used l).1 = l.take (takeAux maxTokens used l).1.length
        ∧ (takeAux maxTokens used l).2 = used + sumCost (takeAux maxTokens used l).1
        ∧ (used ≤ maxTokens → (takeAux maxTokens used l).2 ≤ maxTokens)
        ∧ ∀ t rest', l.drop (takeAux maxTokens used l).1.length = t :: rest' →
            maxTokens < (takeAux maxTokens used l).2 + turnCost t := by
  induction l with
  | nil =>
    intro used
    refine ⟨rfl, by simp [takeAux, sumCost], fun h => by simpa [takeAux] using h, ?_⟩
    intro t rest' hd
    simp [takeAux] at hd
  | cons m rest ih =>
    intro used
    have he : takeAux maxTokens used (m :: rest)
        = if maxTokens < used + turnCost m then ([], used)
          else (m :: (takeAux maxTokens (used + turnCost m) rest).1,
            (takeAux maxTokens (used + turnCost m) rest).2) := rfl
    by_cases h : maxTokens < used + turnCost m
    · rw [he, if_pos h]
      refine ⟨by simp, by simp [sumCost], fun h' => h', ?_⟩
      intro t rest' hd
      simp only [List.length_nil, List.drop_zero] at hd
      cases hd
      exact h
    · rw [he, if_neg h]
      obtain ⟨ih1, ih2, ih3, ih4⟩ := ih (used + turnCost m)
      refine ⟨?_, ?_, ?_, ?_⟩
      · simpa [List.take_succ_cons] using ih1
      · rw [sumCost_cons]
        omega
      · intro _
        exact ih3 (Nat.not_lt.mp h)
      · intro t rest' hd
        simp only [List.length_cons, List.drop_succ_cons] at hd
        exact ih4 t rest' hd

/-- C4: `takeRecentWithinTokenBudget` walks the turns newest to oldest,
costing each `ceil(contentLength / 4)`, and greedily selects a contiguous
newest-anchored prefix, stopping at and excluding the first turn whose cost
would push the running total over the budget; a budget equal to the newest
cost of the newest turn keeps that turn, a budget strictly below it (one unit less)
yields the empty selection. -/
theorem contextBudgeter_greedy_selection (maxTokens : Nat) (l : List ChatTurn) :
    (takeRecentWithinTokenBudget maxTokens l).1
        = l.take (takeRecentWithinTokenBudget maxTokens l).1.length
      ∧ (∀ t rest',
          l.drop (takeRecentWithinTokenBudget maxTokens l).1.length = t :: rest' →
          maxTokens < (takeRecentWithinTokenBudget maxTokens l).2 + turnCost t)
      ∧ (∀ (t : ChatTurn) (rest : List ChatTurn), turnCost t ≤ maxTokens →
          (takeRecentWithinTokenBudget maxTokens (t :: rest)).1.head? = some t)
      ∧ ∀ (t : ChatTurn) (rest : List ChatTurn), maxTokens < turnCost t →
          takeRecentWithinTokenBudget maxTokens (t :: rest) = ([], 0) := by
  obtain ⟨h1, _, _, h4⟩ := takeAux_spec maxTokens l 0
  refine ⟨h1, h4, ?_, ?_⟩
  · intro t rest ht
    have hcons : takeRecentWithinTokenBudget maxTokens (t :: rest)
        = if maxTokens < 0 + turnCost t then ([], 0)
          else (t :: (takeAux maxTokens (0 + turnCost t) rest).1,
            (takeAux maxTokens (0 + turnCost t) rest).2) := rfl
    rw [hcons, if_neg (by omega)]
    rfl
  · intro t rest ht
    have hcons : takeRecentWithinTokenBudget maxTokens (t :: rest)
        = if maxTokens < 0 + turnCost t then ([], 0)
          else (t :: (takeAux maxTokens (0 + turnCost t) rest).1,
            (takeAux maxTokens (0 + turnCost t) rest).2) := rfl
    rw [hcons, if_pos (by omega)]

theorem contextBudgeter_greedy_selection_witness :
    turnCost ⟨Sender.user, "hi"⟩ ≤ 1
      ∧ (takeRecentWithinTokenBudget 1 [⟨Sender.user, "hi"⟩]).1.head?
          = some ⟨Sender.user, "hi"⟩ :=
  ⟨by decide, (contextBudgeter_greedy_selection 1 []).2.2.1 ⟨Sender.user, "hi"⟩ [] (by decide)⟩

/-- C10: the reported `usedTokens` is the sum of `ceil(contentLength / 4)`
over exactly the selected turns, and it never exceeds `maxTokens`. -/
theorem usedTokens_eq_sum_selected (maxTokens : Nat) (l : List ChatTurn) :
    (takeRecentWithinTokenBudget maxTokens l).2
        = sumCost (takeRecentWithinTokenBudget maxTokens l).1
      ∧ (takeRecentWithinTokenBudget maxTokens l).2 ≤ maxTokens := by
  obtain ⟨_, h2, h3, _⟩ := takeAux_spec maxTokens l 0
  exact ⟨by simpa using h2, h3 (Nat.zero_le _)⟩

/-- C6: `generateSupportReply` prepends the fresh user message as the newest
turn before budgeting, so the selection keeps it (as its head) whenever its
cost fits the budget, and only when that message alone exceeds the budget is
the selection empty with zero used units. -/
theorem freshUserMessage_neverDropped (historyOldestToNewest : List ChatTurn)
    (userMessage : String) (envMaxContextTokens : Nat) :
    (turnCost ⟨Sender.user, userMessage⟩ ≤ supportReplyBudget envMaxContextTokens →
        (supportReplySelection historyOldestToNewest userMessage envMaxContextTokens).1.head?
          = some ⟨Sender.user, userMessage⟩)
      ∧ (supportReplyBudget envMaxContextTokens < turnCost ⟨Sender.user, userMessage⟩ →
          supportReplySelection historyOldestToNewest userMessage envMaxContextTokens
            = ([], 0)) := by
  constructor
  · intro ht
    unfold supportReplySelection buildNewestToOldest takeRecentWithinTokenBudget takeAux
    simp [Nat.not_lt.mpr ht]
  · intro ht
    unfold supportReplySelection buildNewestToOldest takeRecentWithinTokenBudget takeAux
    simp [ht]

theorem freshUserMessage_neverDropped_witness :
    turnCost ⟨Sender.user, "hi"⟩ ≤ supportReplyBudget 2000
      ∧ (supportReplySelection [⟨Sender.ai, "earlier reply"⟩] "hi" 2000).1.head?
          = some ⟨Sender.user, "hi"⟩ :=
  ⟨by decide,
    (freshUserMessage_neverDropped [⟨Sender.ai, "earlier reply"⟩] "hi" 2000).1 (by decide)⟩

/-! ### RateLimiter -/

theorem setBucket_self (b : Buckets) (key : String) (e : Entry) :
    setBucket b key e key = some e := by
  simp [setBucket]

theorem allowRequest_noEntry {b : Buckets} {key : String} (w m t : Nat)
    (hb : b key = none) :
    allowRequest b key w m t = (setBucket b key ⟨1, t + w⟩, ⟨true, none⟩) := by
  unfold allowRequest
  rw [hb]

theorem allowRequest_elapsed {b : Buckets} {key : String} {e : Entry} (w m t : Nat)
    (hb : b key = some e) (h : e.resetAt ≤ t) :
    allowRequest b key w m t = (setBucket b key ⟨1, t + w⟩, ⟨true, none⟩) := by
  unfold allowRequest
  rw [hb]
  simp [h]

theorem allowRequest_deny {b : Buckets} {key : String} {e : Entry} (w m t : Nat)
    (hb : b key = some e) (h : ¬ e.resetAt ≤ t) (hc : m ≤ e.count) :
    allowRequest b key w m t = (b, ⟨false, some (e.resetAt - t)⟩) := by
  unfold allowRequest
  rw [hb]
  simp [h, hc]

theorem allowRequest_incr {b : Buckets} {key : String} {e : Entry} (w m t : Nat)
    (hb : b key = some e) (h : ¬ e.resetAt ≤ t) (hc : ¬ m ≤ e.count) :
    allowRequest b key w m t = (setBucket b key ⟨e.count + 1, e.resetAt⟩, ⟨true, none⟩) := by
  unfold allowRequest
  rw [hb]
  simp [h, hc]

theorem windowBound_le (st : Option Entry) (r maxReq : Nat) :
    windowBound st r maxReq ≤ maxReq := by
  cases st with
  | none => exact le_refl _
  | some e =>
    simp only [windowBound]
    split_ifs <;> omega

theorem countAllowed_cons_true (e : Entry) (tr : List (Bool × Option Entry)) (r : Nat) :
    countAllowedInWindow ((true, some e) :: tr) r
      = (if e.resetAt = r then 1 else 0) + countAllowedInWindow tr r := by
  simp only [countAllowedInWindow, List.filter_cons]
  by_cases hr : e.resetAt = r
  · simp [hr]
    omega
  · simp [hr]

theorem countAllowed_cons_false (st : Option Entry) (tr : List (Bool × Option Entry))
    (r : Nat) :
    countAllowedInWindow ((false, st) :: tr) r = countAllowedInWindow tr r := by
  simp [countAllowedInWindow, List.filter_cons]

/-- Workhorse invariant of the limiter: along any run on one key, the number
of allowed requests attributed to the window instance with reset deadline `r`
is bounded by what the current bucket state still permits for `r`. -/
theorem countAllowed_le_windowBound (windowMs maxReq : Nat) (key : String)
    (hw : 1 ≤ windowMs) (hm : 1 ≤ maxReq) :
    ∀ (ts : List Nat) (b : Buckets) (r : Nat),
      countAllowedInWindow (runKey windowMs maxReq key b ts) r
        ≤ windowBound (b key) r maxReq := by
  intro ts
  induction ts with
  | nil =>
    intro b r
    simp only [runKey, countAllowedInWindow, List.filter_nil, List.length_nil]
    exact Nat.zero_le _
  | cons t ts ih =>
    intro b r
    have hrun : runKey windowMs maxReq key b (t :: ts)
        = ((allowRequest b key windowMs maxReq t).2.allowed,
            (allowRequest b key windowMs maxReq t).1 key)
          :: runKey windowMs maxReq key (allowRequest b key windowMs maxReq t).1 ts := rfl
    rw [hrun]
    cases hb : b key with
    | none =>
      rw [allowRequest_noEntry windowMs maxReq t hb]
      dsimp only
      have htail := ih (setBucket b key ⟨1, t + windowMs⟩) r
      rw [setBucket_self] at htail
      rw [setBucket_self, countAllowed_cons_true]
      simp only [windowBound] at htail ⊢
      split_ifs at htail ⊢ <;> omega
    | some e =>
      by_cases hreset : e.resetAt ≤ t
      · rw [allowRequest_elapsed windowMs maxReq t hb hreset]
        dsimp only
        have htail := ih (setBucket b key ⟨1, t + windowMs⟩) r
        rw [setBucket_self] at htail
        rw [setBucket_self, countAllowed_cons_true]
        simp only [windowBound] at htail ⊢
        split_ifs at htail ⊢ <;> omega
      · by_cases hc : maxReq ≤ e.count
        · rw [allowRequest_deny windowMs maxReq t hb hreset hc]
          dsimp only
          rw [hb, countAllowed_cons_false]
          have htail := ih b r
          rw [hb] at htail
          exact htail
        · rw [allowRequest_incr windowMs maxReq t hb hreset hc]
          dsimp only
          have htail := ih (setBucket b key ⟨e.count + 1, e.resetAt⟩) r
          rw [setBucket_self] at htail
          rw [setBucket_self, countAllowed_cons_true]
          simp only [windowBound] at htail ⊢
          split_ifs at htail ⊢ <;> omega

/-- C5 (amended): for a positive window duration and `maxRequests ≥ 1`, any
run of the limiter on a key allows at most `maxRequests` requests within any
single window instance (identified by its reset deadline); once a window has
elapsed, the next request re-opens the bucket with counter 1 and a fresh
deadline; and a denied request reports exactly the milliseconds remaining
until the window resets. -/
theorem rateLimiter_window_bounds (key : String) (windowMs maxReq : Nat)
    (hw : 1 ≤ windowMs) (hm : 1 ≤ maxReq) :
    (∀ (ts : List Nat) (r : Nat),
        countAllowedInWindow (runKey windowMs maxReq key emptyBuckets ts) r ≤ maxReq)
      ∧ (∀ (b : Buckets) (e : Entry) (now : Nat), b key = some e → e.resetAt ≤ now →
          allowRequest b key windowMs maxReq now
            = (setBucket b key ⟨1, now + windowMs⟩, ⟨true, none⟩))
      ∧ ∀ (b : Buckets) (e : Entry) (now : Nat), b key = some e → now < e.resetAt →
          maxReq ≤ e.count →
          allowRequest b key windowMs maxReq now = (b, ⟨false, some (e.resetAt - now)⟩) := by
  refine ⟨?_, ?_, ?_⟩
  · intro ts r
    have h := countAllowed_le_windowBound windowMs maxReq key hw hm ts emptyBuckets r
    simpa [emptyBuckets, windowBound] using h
  · intro b e now hb h
    exact allowRequest_elapsed windowMs maxReq now hb h
  · intro b e now hb h hc
    exact allowRequest_deny windowMs maxReq now hb (Nat.not_le.mpr h) hc

theorem rateLimiter_window_bounds_witness :
    1 ≤ 10 ∧ 1 ≤ 2
      ∧ countAllowedInWindow (runKey 10 2 "k" emptyBuckets [0, 1, 2, 3]) 10 ≤ 2 :=
  ⟨by decide, by decide,
    (rateLimiter_window_bounds "k" 10 2 (by decide) (by decide)).1 [0, 1, 2, 3] 10⟩

/-- C5 counterexample: with `maxRequests = 0` the limiter still allows the
first request of a fresh window, so the claim does not hold for every
`maxRequests` value. -/
theorem rateLimiter_maxZero_counterexample :
    (allowRequest emptyBuckets "k" 10 0 0).2.allowed = true
      ∧ countAllowedInWindow (runKey 10 0 "k" emptyBuckets [0]) 10 = 1 := by
  constructor
  · rfl
  · rfl

/-- C8: whenever the key has no bucket or the window of the bucket has elapsed,
`allowRequest` allows unconditionally — the comparison against `max` is never
reached — and re-opens the bucket at count 1; this holds for `max = 0` too. -/
theorem allowRequest_freshWindow_alwaysAllows (b : Buckets) (key : String)
    (windowMs maxReq now : Nat)
    (h : b key = none ∨ ∃ e, b key = some e ∧ e.resetAt ≤ now) :
    (allowRequest b key windowMs maxReq now).2.allowed = true
      ∧ (allowRequest b key windowMs maxReq now).1 key = some ⟨1, now + windowMs⟩ := by
  rcases h with hb | ⟨e, hb, he⟩
  · rw [allowRequest_noEntry windowMs maxReq now hb]
    exact ⟨rfl, setBucket_self b key _⟩
  · rw [allowRequest_elapsed windowMs maxReq now hb he]
    exact ⟨rfl, setBucket_self b key _⟩

theorem allowRequest_freshWindow_alwaysAllows_witness :
    (allowRequest emptyBuckets "k" 10 0 5).2.allowed = true
      ∧ (allowRequest emptyBuckets "k" 10 0 5).1 "k" = some ⟨1, 15⟩ :=
  allowRequest_freshWindow_alwaysAllows emptyBuckets "k" 10 0 5 (Or.inl rfl)

/-! ### Cursor decoding -/

/-- C7 (amended): a nonempty cursor that fails to decode is answered with the
invalid-cursor rejection, which is distinct from the absent-cursor behaviour
of serving the most recent page; the one exception forced by the code is the
empty cursor string, which the JavaScript truthiness test of the handler treats as
absent (see the counterexample). -/
theorem invalidCursor_rejected (lib : DateLib) (s : String) (hs : s ≠ "") :
    (parseCursor lib (some s) = none →
        historyDecision lib (some s) = HistoryDecision.invalid)
      ∧ historyDecision lib none = HistoryDecision.recent
      ∧ HistoryDecision.invalid ≠ HistoryDecision.recent := by
  refine ⟨?_, ?_, by decide⟩
  · intro hp
    unfold historyDecision
    rw [hp]
    simp [cursorTruthy, hs]
  · simp [historyDecision, parseCursor, cursorTruthy]

theorem invalidCursor_rejected_witness :
    parseCursor testDateLib (some "garbage") = none
      ∧ historyDecision testDateLib (some "garbage") = HistoryDecision.invalid :=
  ⟨by decide, (invalidCursor_rejected testDateLib "garbage" (by decide)).1 (by decide)⟩

/-- C7 counterexample: the empty-string cursor is malformed — its timestamp
segment fails both the ISO check and general date parsing — yet the handler
falls back to the absent-cursor most-recent-page behaviour instead of
rejecting it, because the empty string is falsy in `if (!cursor)` and
`if (cursor && !parsedCursor)`. -/
theorem emptyCursor_fallsBack_counterexample :
    toIso testDateLib "" = none
      ∧ historyDecision testDateLib (some "") = HistoryDecision.recent := by
  exact ⟨rfl, rfl⟩

/-- C9: for a pipe-free, nonempty cursor string, an already-ISO timestamp is
used as-is, a timestamp accepted only by the general date parser is
normalized via `toISOString` and that normalized value is what the query
branch receives, and the cursor is invalid exactly when the timestamp fails
both the ISO check and general date parsing. -/
theorem cursorTimestamp_normalized (lib : DateLib) (s : String)
    (hs : s ≠ "") (hsplit : splitPipe s = [s]) :
    (lib.isoValid (jsTrim s) = true →
        parseCursor lib (some s) = some ⟨jsTrim s, none⟩)
      ∧ (lib.isoValid (jsTrim s) = false → ∀ ms : Int, lib.dateParse (jsTrim s) = some ms →
          parseCursor lib (some s) = some ⟨lib.toIsoString ms, none⟩)
      ∧ (lib.isoValid (jsTrim s) = false → lib.dateParse (jsTrim s) = none →
          parseCursor lib (some s) = none)
      ∧ ∀ c : ParsedCursor, parseCursor lib (some s) = some c →
          historyDecision lib (some s) = HistoryDecision.older c := by
  have hpc : parseCursor lib (some s)
      = match toIso lib s with
        | some iso => some ⟨iso, none⟩
        | none => none := by
    unfold parseCursor
    dsimp only
    rw [if_neg hs, hsplit]
  refine ⟨?_, ?_, ?_, ?_⟩
  · intro hiso
    have ht : toIso lib s = some (jsTrim s) := by
      unfold toIso
      simp [hiso]
    rw [hpc, ht]
  · intro hiso ms hms
    have ht : toIso lib s = some (lib.toIsoString ms) := by
      unfold toIso
      simp [hiso, hms]
    rw [hpc, ht]
  · intro hiso hms
    have ht : toIso lib s = none := by
      unfold toIso
      simp [hiso, hms]
    rw [hpc, ht]
  · intro c hc
    unfold historyDecision
    rw [hc]
    simp

theorem cursorTimestamp_normalized_witness :
    parseCursor testDateLib (some sampleLooseDate) = some ⟨sampleIso, none⟩
      ∧ historyDecision testDateLib (some sampleLooseDate)
          = HistoryDecision.older ⟨sampleIso, none⟩ := by
  have h := cursorTimestamp_normalized testDateLib sampleLooseDate (by decide) (by decide)
  have hp : parseCursor testDateLib (some sampleLooseDate) = some ⟨sampleIso, none⟩ :=
    h.2.1 (by decide) 1766944354000 (by decide)
  exact ⟨hp, h.2.2.2 _ hp⟩

/-! ### Send flow -/

theorem keyLt_trans {a b c : Nat × Nat} (h1 : keyLt a b) (h2 : keyLt b c) : keyLt a c := by
  unfold keyLt at *
  omega

theorem mem_getRecentMessages {store : List MsgRec} {cid limit : Nat} {m : MsgRec}
    (h : m ∈ getRecentMessages store cid limit) : m ∈ store ∧ m.conversationId = cid := by
  unfold getRecentMessages sortDesc at h
  rw [List.mem_reverse] at h
  have h2 := List.mem_of_mem_take h
  rw [List.mem_insertionSort] at h2
  have h3 := List.mem_filter.mp h2
  exact ⟨h3.1, by simpa using h3.2⟩

/-- In a list sorted descending by `(created_at, id)`, an element strictly
newer than every other element is the head. -/
theorem sorted_head_of_max {S : List MsgRec} {u : MsgRec}
    (hs : List.Sorted descKey S) (hu : u ∈ S)
    (hmax : ∀ v ∈ S, v ≠ u → keyLt (mkey v) (mkey u)) :
    S.head? = some u := by
  cases S with
  | nil => cases hu
  | cons a tail =>
    by_cases ha : a = u
    · rw [ha]
      rfl
    · exfalso
      have h1 : keyLt (mkey a) (mkey u) := hmax a (List.mem_cons_self a tail) ha
      have hu' : u ∈ tail := by
        rcases List.mem_cons.mp hu with h | h
        · exact absurd h.symm ha
        · exact h
      have h2 : descKey a u := (List.sorted_cons.mp hs).1 u hu'
      unfold descKey at h2
      unfold keyLt at h1 h2
      simp only [Prod.ext_iff] at h2
      omega

/-- A message whose key is strictly newer than everything stored for its
conversation is always part of the recent page (for a positive page size). -/
theorem userMsg_mem_recent (store : List MsgRec) (cid pageSize : Nat) (u : MsgRec)
    (hcid : u.conversationId = cid) (hpage : 1 ≤ pageSize)
    (hfresh : ∀ m ∈ store, m.conversationId = cid → keyLt (mkey m) (mkey u)) :
    u ∈ getRecentMessages (store ++ [u]) cid pageSize := by
  unfold getRecentMessages sortDesc
  rw [List.mem_reverse]
  have huF : u ∈ (store ++ [u]).filter (fun m => m.conversationId == cid) := by
    rw [List.mem_filter]
    exact ⟨List.mem_append_right _ (List.mem_singleton.mpr rfl), by simp [hcid]⟩
  have huS : u ∈ ((store ++ [u]).filter
      (fun m => m.conversationId == cid)).insertionSort descKey := by
    rw [List.mem_insertionSort]
    exact huF
  have hmax : ∀ v ∈ ((store ++ [u]).filter
      (fun m => m.conversationId == cid)).insertionSort descKey,
      v ≠ u → keyLt (mkey v) (mkey u) := by
    intro v hv hne
    rw [List.mem_insertionSort, List.mem_filter] at hv
    have hvs : v ∈ store := by
      rcases List.mem_append.mp hv.1 with h | h
      · exact h
      · exact absurd (List.mem_singleton.mp h) hne
    exact hfresh v hvs (by simpa using hv.2)
  have hhead := sorted_head_of_max
    (List.sorted_insertionSort descKey _) huS hmax
  obtain ⟨n, rfl⟩ : ∃ n, pageSize = n + 1 := by
    cases pageSize with
    | zero => omega
    | succ n => exact ⟨n, rfl⟩
  cases hSe : ((store ++ [u]).filter
      (fun m => m.conversationId == cid)).insertionSort descKey with
  | nil =>
    rw [hSe] at hhead
    cases hhead
  | cons a tail =>
    rw [hSe] at hhead
    have ha : a = u := by
      simpa using hhead
    rw [List.take_succ_cons, ha]
    exact List.mem_cons_self u _

/-- Inner computation of the POST /message handler on the valid path: the
fetch happens on the pre-insert store, the user row is appended, and the LLM
outcome decides between the 200 response with an appended ai row and the 502
apology with no ai row. -/
theorem postMessage_eq (pageSize maxChars : Nat) (store : List MsgRec) (message : String)
    (cid : Nat) (userKey aiKey : Nat × Nat) (llm : Except Unit String)
    (hmsg : (jsTrim message).length ≠ 0)
    (hclean : (cleanOf (jsTrim message)).length ≠ 0)
    (hlen : (cleanOf (jsTrim message)).length ≤ maxChars) :
    postMessage pageSize maxChars store true message cid userKey aiKey llm
      = match llm with
        | Except.ok reply =>
          ⟨store ++ [⟨userKey.2, cid, Sender.user, cleanOf (jsTrim message), userKey.1⟩]
              ++ [⟨aiKey.2, cid, Sender.ai, reply, aiKey.1⟩],
            ⟨200, reply⟩,
            [FlowEvent.ensureConv, FlowEvent.fetchRecent, FlowEvent.insertUser,
              FlowEvent.callLlm, FlowEvent.insertAi],
            some ((getRecentMessages store cid pageSize).map toTurn,
              cleanOf (jsTrim message))⟩
        | Except.error _ =>
          ⟨store ++ [⟨userKey.2, cid, Sender.user, cleanOf (jsTrim message), userKey.1⟩],
            ⟨502, apologyBody⟩,
            [FlowEvent.ensureConv, FlowEvent.fetchRecent, FlowEvent.insertUser,
              FlowEvent.callLlm],
            some ((getRecentMessages store cid pageSize).map toTurn,
              cleanOf (jsTrim message))⟩ := by
  unfold postMessage
  rw [if_neg (by simp [hmsg])]
  dsimp only
  rw [if_neg hclean]
  rw [if_neg (by omega)]

/-- C1: when the completion call fails after the user message was persisted,
the flow keeps the user message durable (the new store is exactly the old one
plus the user row), persists no ai message, still returns the user message in
a subsequent history fetch with every ai message predating it, and responds
with the fixed 502 apology, a string distinct from the validation and
rate-limit error strings. -/
theorem sendFlow_llmFailure_durable (pageSize maxChars : Nat) (store : List MsgRec)
    (message : String) (cid : Nat) (userKey aiKey : Nat × Nat)
    (hmsg : (jsTrim message).length ≠ 0)
    (hclean : (cleanOf (jsTrim message)).length ≠ 0)
    (hlen : (cleanOf (jsTrim message)).length ≤ maxChars)
    (hpage : 1 ≤ pageSize)
    (hfresh : ∀ m ∈ store, m.conversationId = cid → keyLt (mkey m) userKey) :
    let r := postMessage pageSize maxChars store true message cid userKey aiKey
      (Except.error ())
    let userMsg : MsgRec :=
      ⟨userKey.2, cid, Sender.user, cleanOf (jsTrim message), userKey.1⟩
    r.store = store ++ [userMsg]
      ∧ r.store.filter (fun m => decide (m.sender = Sender.ai))
          = store.filter (fun m => decide (m.sender = Sender.ai))
      ∧ userMsg ∈ getRecentMessages r.store cid pageSize
      ∧ (∀ m ∈ getRecentMessages r.store cid pageSize,
          m.sender = Sender.ai → keyLt (mkey m) userKey)
      ∧ r.response = ⟨502, apologyBody⟩
      ∧ apologyBody ≠ invalidRequestBody ∧ apologyBody ≠ emptyMessageBody
      ∧ apologyBody ≠ tooLongBody ∧ apologyBody ≠ rateLimitSessionBody
      ∧ apologyBody ≠ rateLimitIpBody := by
  intro r userMsg
  have hr : r = ⟨store ++ [userMsg], ⟨502, apologyBody⟩,
      [FlowEvent.ensureConv, FlowEvent.fetchRecent, FlowEvent.insertUser,
        FlowEvent.callLlm],
      some ((getRecentMessages store cid pageSize).map toTurn,
        cleanOf (jsTrim message))⟩ :=
    postMessage_eq pageSize maxChars store message cid userKey aiKey
      (Except.error ()) hmsg hclean hlen
  have hukey : mkey userMsg = userKey := by
    simp [mkey, userMsg]
  refine ⟨by rw [hr], ?_, ?_, ?_, by rw [hr], by decide, by decide, by decide,
    by decide, by decide⟩
  · rw [hr]
    show (store ++ [userMsg]).filter (fun m => decide (m.sender = Sender.ai))
        = store.filter (fun m => decide (m.sender = Sender.ai))
    rw [List.filter_append]
    simp [userMsg, List.filter]
  · rw [hr]
    show userMsg ∈ getRecentMessages (store ++ [userMsg]) cid pageSize
    refine userMsg_mem_recent store cid pageSize userMsg rfl hpage ?_
    intro m hm hcid
    rw [hukey]
    exact hfresh m hm hcid
  · rw [hr]
    intro m hm hai
    obtain ⟨hms, hcid⟩ := mem_getRecentMessages hm
    rcases List.mem_append.mp hms with h | h
    · exact hfresh m h hcid
    · exfalso
      rw [List.mem_singleton.mp h] at hai
      exact absurd hai (by simp [userMsg])

theorem sendFlow_llmFailure_durable_witness :
    (postMessage 10 2000 [] true "hi" 0 (1, 1) (2, 2) (Except.error ())).response
        = ⟨502, apologyBody⟩
      ∧ ⟨1, 0, Sender.user, cleanOf (jsTrim "hi"), 1⟩
          ∈ getRecentMessages
              (postMessage 10 2000 [] true "hi" 0 (1, 1) (2, 2) (Except.error ())).store
              0 10 := by
  have h := sendFlow_llmFailure_durable 10 2000 [] "hi" 0 (1, 1) (2, 2)
    (by decide) (by decide) (by decide) (by decide) (by intro m hm; cases hm)
  exact ⟨h.2.2.2.2.1, h.2.2.1⟩

/-- C2 (amended): on the valid path the handler fetches the recent history
before persisting the user message; the fetched page therefore excludes the
turn about to be inserted, and the freshly submitted text reaches budgeting
as a separate argument of the LLM call rather than being re-read from
storage. -/
theorem sendFlow_fetchBeforePersist (pageSize maxChars : Nat) (store : List MsgRec)
    (message : String) (cid : Nat) (userKey aiKey : Nat × Nat) (llm : Except Unit String)
    (hmsg : (jsTrim message).length ≠ 0)
    (hclean : (cleanOf (jsTrim message)).length ≠ 0)
    (hlen : (cleanOf (jsTrim message)).length ≤ maxChars)
    (hfresh : ∀ m ∈ store, mkey m ≠ userKey) :
    let r := postMessage pageSize maxChars store true message cid userKey aiKey llm
    (∃ rest, r.trace
        = FlowEvent.ensureConv :: FlowEvent.fetchRecent :: FlowEvent.insertUser
            :: FlowEvent.callLlm :: rest)
      ∧ r.llmInput = some ((getRecentMessages store cid pageSize).map toTurn,
          cleanOf (jsTrim message))
      ∧ ∀ m ∈ getRecentMessages store cid pageSize, mkey m ≠ userKey := by
  intro r
  have hkey : ∀ m ∈ getRecentMessages store cid pageSize, mkey m ≠ userKey :=
    fun m hm => hfresh m (mem_getRecentMessages hm).1
  have hr := postMessage_eq pageSize maxChars store message cid userKey aiKey llm
    hmsg hclean hlen
  cases llm with
  | ok reply =>
    refine ⟨⟨[FlowEvent.insertAi], ?_⟩, ?_, hkey⟩
    · show (postMessage pageSize maxChars store true message cid userKey aiKey
        (Except.ok reply)).trace = _
      rw [hr]
    · show (postMessage pageSize maxChars store true message cid userKey aiKey
        (Except.ok reply)).llmInput = _
      rw [hr]
  | error e =>
    refine ⟨⟨[], ?_⟩, ?_, hkey⟩
    · show (postMessage pageSize maxChars store true message cid userKey aiKey
        (Except.error e)).trace = _
      rw [hr]
    · show (postMessage pageSize maxChars store true message cid userKey aiKey
        (Except.error e)).llmInput = _
      rw [hr]

theorem sendFlow_fetchBeforePersist_witness :
    (postMessage 10 2000 [] true "hi" 0 (1, 1) (2, 2) (Except.ok "hello")).llmInput
        = some ((getRecentMessages [] 0 10).map toTurn, cleanOf (jsTrim "hi")) :=
  (sendFlow_fetchBeforePersist 10 2000 [] "hi" 0 (1, 1) (2, 2) (Except.ok "hello")
    (by decide) (by decide) (by decide) (by intro m hm; cases hm)).2.1

/-- C2 counterexample: a concrete run of the handler shows the fetch-recent
call strictly before the insert of the user message in the trace, where the
claim requires the user message to be persisted first. -/
theorem sendFlow_persistOrder_counterexample :
    (postMessage 10 2000 [] true "hi" 0 (1, 1) (2, 2) (Except.ok "hello")).trace
        = [FlowEvent.ensureConv, FlowEvent.fetchRecent, FlowEvent.insertUser,
            FlowEvent.callLlm, FlowEvent.insertAi]
      ∧ (postMessage 10 2000 [] true "hi" 0 (1, 1) (2, 2)
            (Except.ok "hello")).trace.findIdx (fun e => e == FlowEvent.fetchRecent)
          < (postMessage 10 2000 [] true "hi" 0 (1, 1) (2, 2)
            (Except.ok "hello")).trace.findIdx (fun e => e == FlowEvent.insertUser) := by
  constructor
  · rfl
  · decide

/-! ### History pagination round trip -/

theorem sortDesc_perm (l : List MsgRec) : List.Perm (sortDesc l) l :=
  List.perm_insertionSort descKey l

theorem sortDesc_sorted (l : List MsgRec) : List.Sorted descKey (sortDesc l) :=
  List.sorted_insertionSort descKey l

/-- One `/history` call, written as: filter, order descending, take the page,
reverse to ascending, and point the next cursor at the round-tripped key of
the oldest returned row. -/
theorem historyPage_eq (store : List MsgRec) (cid : Nat) (cursor : Option (Nat × Nat))
    (limit : Nat) :
    historyPage store cid cursor limit
      = (((sortDesc (convFilter store cid cursor)).take limit).reverse,
          (((sortDesc (convFilter store cid cursor)).take limit).reverse.head?).map
            (fun m => cursorRoundTrip (mkey m))) := by
  cases cursor with
  | none => rfl
  | some c => rfl

theorem mem_convFilter {store : List MsgRec} {cid : Nat} {cursor : Option (Nat × Nat)}
    {m : MsgRec} (h : m ∈ convFilter store cid cursor) : m ∈ store := by
  cases cursor with
  | none => exact (List.mem_filter.mp h).1
  | some c => exact (List.mem_filter.mp h).1

/-- In a descending-sorted list the last element is a lower bound. -/
theorem descKey_of_getLast :
    ∀ (l : List MsgRec) (o : MsgRec), List.Sorted descKey l → l.getLast? = some o →
      ∀ x ∈ l, descKey x o := by
  intro l
  induction l with
  | nil =>
    intro o _ h
    cases h
  | cons a t ih =>
    intro o hs hl x hx
    cases t with
    | nil =>
      have hao : a = o := by simpa using hl
      have hxa : x = a := by simpa using hx
      rw [hxa, hao]
      exact Or.inr rfl
    | cons b t2 =>
      rw [List.getLast?_cons_cons] at hl
      have ho : o ∈ b :: t2 := List.mem_of_mem_getLast? hl
      rcases List.mem_cons.mp hx with rfl | hx2
      · exact (List.sorted_cons.mp hs).1 o ho
      · exact ih o (List.sorted_cons.mp hs).2 hl x hx2

theorem convFilter_nodup {store : List MsgRec} (cid : Nat) (cursor : Option (Nat × Nat))
    (hnd : (store.map mkey).Nodup) : ((convFilter store cid cursor).map mkey).Nodup := by
  have hsub : List.Sublist (convFilter store cid cursor) store := by
    cases cursor <;> exact List.filter_sublist store
  exact hnd.sublist (hsub.map mkey)

/-- The crucial cursor step: after a page ending at `o` (the oldest row
returned), the rows strictly before `(created_at, id)` of `o` are, up to
permutation, exactly the rows the previous fetch ordered after the page. -/
theorem pageStep (store : List MsgRec) (cid limit : Nat) (cursor : Option (Nat × Nat))
    (o : MsgRec)
    (hnd : ((convFilter store cid cursor).map mkey).Nodup)
    (ho : ((sortDesc (convFilter store cid cursor)).take limit).getLast? = some o) :
    List.Perm (convFilter store cid (some (mkey o)))
      ((sortDesc (convFilter store cid cursor)).drop limit) := by
  set F := convFilter store cid cursor with hF
  set S := sortDesc F with hS
  have hSperm : List.Perm S F := sortDesc_perm F
  have hSsort : List.Sorted descKey S := sortDesc_sorted F
  have hSnd : (S.map mkey).Nodup := ((hSperm.map mkey).nodup_iff).mpr hnd
  have hoT : o ∈ S.take limit := List.mem_of_mem_getLast? ho
  have hoS : o ∈ S := List.mem_of_mem_take hoT
  have hTrel : ∀ x ∈ S.take limit, descKey x o :=
    descKey_of_getLast _ o (hSsort.sublist (List.take_sublist limit S)) ho
  have hDrel : ∀ y ∈ S.drop limit, descKey o y := fun y hy =>
    hSsort.rel_of_mem_take_of_mem_drop hoT hy
  have hDne : ∀ y ∈ S.drop limit, mkey y ≠ mkey o := by
    intro y hy
    have hnd2 : ((S.take limit).map mkey ++ (S.drop limit).map mkey).Nodup := by
      rw [← List.map_append, List.take_append_drop]
      exact hSnd
    have hout := (List.nodup_append.mp hnd2).2.2 (List.mem_map_of_mem mkey hoT)
    intro he
    exact hout (he ▸ List.mem_map_of_mem mkey hy)
  have hDlt : ∀ y ∈ S.drop limit, keyLt (mkey y) (mkey o) := by
    intro y hy
    rcases hDrel y hy with h | h
    · exact h
    · exact absurd h (hDne y hy)
  have hTnlt : ∀ x ∈ S.take limit, ¬ keyLt (mkey x) (mkey o) := by
    intro x hx hlt
    rcases hTrel x hx with h | h
    · unfold keyLt at h hlt
      omega
    · rw [← h] at hlt
      unfold keyLt at hlt
      omega
  have hfilS : S.filter (fun m => decide (keyLt (mkey m) (mkey o))) = S.drop limit := by
    have h1 : (S.take limit).filter (fun m => decide (keyLt (mkey m) (mkey o))) = [] :=
      List.filter_eq_nil_iff.mpr (by intro x hx; simpa using hTnlt x hx)
    have h2 : (S.drop limit).filter (fun m => decide (keyLt (mkey m) (mkey o)))
        = S.drop limit :=
      List.filter_eq_self.mpr (by intro y hy; simpa using hDlt y hy)
    conv_lhs => rw [← List.take_append_drop limit S]
    rw [List.filter_append, h1, h2, List.nil_append]
  have hoF : o ∈ F := hSperm.mem_iff.mp hoS
  have hF' : convFilter store cid (some (mkey o))
      = F.filter (fun m => decide (keyLt (mkey m) (mkey o))) := by
    cases cursor with
    | none =>
      rw [hF]
      unfold convFilter
      rw [List.filter_filter]
      apply List.filter_congr
      intro m hm
      by_cases h1 : m.conversationId = cid <;> by_cases h2 : keyLt (mkey m) (mkey o) <;>
        simp [h1, h2]
    | some c =>
      have hco : keyLt (mkey o) c := by
        rw [hF] at hoF
        unfold convFilter at hoF
        have hb := (List.mem_filter.mp hoF).2
        simp only [Bool.and_eq_true, decide_eq_true_eq] at hb
        exact hb.2
      rw [hF]
      unfold convFilter
      rw [List.filter_filter]
      apply List.filter_congr
      intro m hm
      by_cases h1 : m.conversationId = cid <;> by_cases h2 : keyLt (mkey m) (mkey o) <;>
        simp [h1, h2]
      exact keyLt_trans h2 hco
  rw [hF']
  exact hfilS ▸ (hSperm.filter _).symm

/-- Each returned page is in strictly ascending `(created_at, id)` order. -/
theorem page_sorted_asc (l : List MsgRec) (limit : Nat) (hnd : (l.map mkey).Nodup) :
    List.Sorted (fun a b => keyLt (mkey a) (mkey b)) (((sortDesc l).take limit).reverse) := by
  have hs : List.Pairwise descKey ((sortDesc l).take limit) :=
    (sortDesc_sorted l).sublist (List.take_sublist limit (sortDesc l))
  have hnd2 : (((sortDesc l).take limit).map mkey).Nodup := by
    have hperm : ((sortDesc l).map mkey).Nodup :=
      ((sortDesc_perm l).map mkey).nodup_iff.mpr hnd
    exact hperm.sublist ((List.take_sublist limit (sortDesc l)).map mkey)
  have hne : ((sortDesc l).take limit).Pairwise (fun a b => mkey a ≠ mkey b) := by
    rw [List.Nodup, List.pairwise_map] at hnd2
    exact hnd2
  have hstrict : ((sortDesc l).take limit).Pairwise
      (fun a b => keyLt (mkey b) (mkey a)) := by
    refine (hs.and hne).imp ?_
    intro a b hab
    rcases hab.1 with h | h
    · exact h
    · exact absurd h.symm hab.2
  rw [List.Sorted, List.pairwise_reverse]
  exact hstrict

/-- Degenerate round-trip step: once no rows remain before the cursor, the
handler returns an empty page and a null next cursor, ending the loop. -/
theorem collectPages_emptyF (store : List MsgRec) (cid limit : Nat)
    (cursor : Option (Nat × Nat)) (fuel : Nat)
    (hemp : convFilter store cid cursor = []) (hf : 0 < fuel) :
    List.Perm (collectPages store cid limit cursor fuel).flatten
        (convFilter store cid cursor)
      ∧ ∀ p ∈ collectPages store cid limit cursor fuel,
          List.Sorted (fun a b => keyLt (mkey a) (mkey b)) p := by
  obtain ⟨f, rfl⟩ : ∃ f, fuel = f + 1 := ⟨fuel - 1, by omega⟩
  have hpage : historyPage store cid cursor limit = ([], none) := by
    rw [historyPage_eq, hemp]
    simp [sortDesc, List.insertionSort]
  have hcol : collectPages store cid limit cursor (f + 1) = [[]] := by
    unfold collectPages
    rw [hpage]
  rw [hcol, hemp]
  refine ⟨by simp, ?_⟩
  intro p hp
  rw [List.mem_singleton.mp hp]
  exact List.sorted_nil

/-- Round-trip invariant under a lossless cursor channel (every stored
timestamp is a whole second, so flooring to the second is the identity), by
induction on the number of rows left before the cursor: the concatenation of
the remaining pages is a permutation of exactly those rows, and every page is
ascending. -/
theorem collectPages_spec (store : List MsgRec) (cid limit : Nat)
    (hnd : (store.map mkey).Nodup) (hlimit : 1 ≤ limit)
    (hsec : ∀ m ∈ store, m.createdAt % 1000 = 0) :
    ∀ (n : Nat) (cursor : Option (Nat × Nat)) (fuel : Nat),
      (convFilter store cid cursor).length ≤ n →
      (convFilter store cid cursor).length < fuel →
      List.Perm (collectPages store cid limit cursor fuel).flatten
          (convFilter store cid cursor)
        ∧ ∀ p ∈ collectPages store cid limit cursor fuel,
            List.Sorted (fun a b => keyLt (mkey a) (mkey b)) p := by
  intro n
  induction n with
  | zero =>
    intro cursor fuel h0 hfuel
    exact collectPages_emptyF store cid limit cursor fuel
      (List.length_eq_zero.mp (by omega)) (by omega)
  | succ n ih =>
    intro cursor fuel hn hfuel
    by_cases hemp : convFilter store cid cursor = []
    · exact collectPages_emptyF store cid limit cursor fuel hemp (by omega)
    · have hSperm := sortDesc_perm (convFilter store cid cursor)
      have hSne : sortDesc (convFilter store cid cursor) ≠ [] := by
        intro h
        exact hemp ((h ▸ hSperm).nil_eq).symm
      have hTne : (sortDesc (convFilter store cid cursor)).take limit ≠ [] := by
        refine List.ne_nil_of_length_pos ?_
        rw [List.length_take]
        have := List.length_pos.mpr hSne
        omega
      obtain ⟨o, ho⟩ := Option.isSome_iff_exists.mp (List.getLast?_isSome.mpr hTne)
      have hoStore : o ∈ store :=
        mem_convFilter ((sortDesc_perm _).mem_iff.mp
          (List.mem_of_mem_take (List.mem_of_mem_getLast? ho)))
      have hosec : cursorRoundTrip (mkey o) = mkey o := by
        have h0 : o.createdAt % 1000 = 0 := hsec o hoStore
        unfold cursorRoundTrip floorToSecond mkey
        have hdiv : o.createdAt / 1000 * 1000 = o.createdAt := by omega
        rw [hdiv]
      have hpage : historyPage store cid cursor limit
          = (((sortDesc (convFilter store cid cursor)).take limit).reverse,
              some (mkey o)) := by
        rw [historyPage_eq]
        rw [List.head?_reverse, ho]
        simp [hosec]
      obtain ⟨f, rfl⟩ : ∃ f, fuel = f + 1 := ⟨fuel - 1, by omega⟩
      have hcol : collectPages store cid limit cursor (f + 1)
          = ((sortDesc (convFilter store cid cursor)).take limit).reverse
              :: collectPages store cid limit (some (mkey o)) f := by
        conv_lhs => rw [collectPages]
        rw [hpage]
      have hnd' := convFilter_nodup cid cursor hnd
      have hstep := pageStep store cid limit cursor o hnd' ho
      have hlenF : (convFilter store cid (some (mkey o))).length
          = (sortDesc (convFilter store cid cursor)).length - limit := by
        rw [hstep.length_eq, List.length_drop]
      have hSlen : (sortDesc (convFilter store cid cursor)).length
          = (convFilter store cid cursor).length := hSperm.length_eq
      have hFpos : 0 < (convFilter store cid cursor).length := List.length_pos.mpr hemp
      obtain ⟨ihperm, ihsort⟩ := ih (some (mkey o)) f (by omega) (by omega)
      rw [hcol]
      constructor
      · rw [List.flatten_cons]
        have hp1 : List.Perm
            (((sortDesc (convFilter store cid cursor)).take limit).reverse
              ++ (collectPages store cid limit (some (mkey o)) f).flatten)
            ((sortDesc (convFilter store cid cursor)).take limit
              ++ (sortDesc (convFilter store cid cursor)).drop limit) :=
          (List.reverse_perm _).append (ihperm.trans hstep)
        have hTD : List.Perm
            ((sortDesc (convFilter store cid cursor)).take limit
              ++ (sortDesc (convFilter store cid cursor)).drop limit)
            (convFilter store cid cursor) := by
          rw [List.take_append_drop]
          exact hSperm
        exact hp1.trans hTD
      · intro p hp
        rcases List.mem_cons.mp hp with rfl | hp2
        · exact page_sorted_asc (convFilter store cid cursor) limit hnd'
        · exact ihsort p hp2

/-- Supporting theorem for C3: whenever the cursor string channel is lossless
on the stored keys — every timestamp is a whole second, so the whole-second
rendering of `Date.prototype.toString` loses nothing — the round trip is
gapless: feeding each `nextCursor` back until null yields every message of
the conversation exactly once, each page in ascending order.  This isolates
the sub-second truncation of the cursor encoding as the sole source of the
gap exhibited below. -/
theorem historyPagination_complete_wholeSecond (store : List MsgRec)
    (cid limit fuel : Nat)
    (hnd : (store.map mkey).Nodup) (hlimit : 1 ≤ limit)
    (hsec : ∀ m ∈ store, m.createdAt % 1000 = 0) (hfuel : store.length < fuel) :
    List.Perm (collectPages store cid limit none fuel).flatten
        (store.filter (fun m => m.conversationId == cid))
      ∧ ∀ p ∈ collectPages store cid limit none fuel,
          List.Sorted (fun a b => keyLt (mkey a) (mkey b)) p := by
  have hlen : (convFilter store cid none).length ≤ store.length := by
    unfold convFilter
    exact List.length_filter_le _ store
  exact collectPages_spec store cid limit hnd hlimit hsec store.length none fuel hlen
    (by omega)

theorem historyPagination_wholeSecond_example :
    List.Perm (collectPages demoStore 0 2 none 4).flatten
        (demoStore.filter (fun m => m.conversationId == 0))
      ∧ ∀ p ∈ collectPages demoStore 0 2 none 4,
          List.Sorted (fun a b => keyLt (mkey a) (mkey b)) p :=
  historyPagination_complete_wholeSecond demoStore 0 2 4 (by decide) (by decide)
    (by decide) (by decide)

/-- C3, failing input: the pagination round trip loses a message when rows
share a wall-clock second.  With three messages of one conversation at
10100 ms, 10200 ms and 10300 ms and page size 2, the first call returns the
two newest rows and a cursor pointing at the 10200 ms row; the cursor string
channel floors its timestamp to 10000 ms, so the second call filters on
`(created_at, id) < (10000, 2)`, excludes the strictly older 10100 ms row,
returns the empty page, and ends the loop — the 10100 ms message is stored
but never yielded, a gap the claim forbids. -/
theorem paginationGap_at_sameSecond :
    (collectPages gapDemoStore 0 2 none 5).flatten
        = [⟨2, 0, Sender.ai, "b", 10200⟩, ⟨3, 0, Sender.user, "c", 10300⟩]
      ∧ (⟨1, 0, Sender.user, "a", 10100⟩ : MsgRec)
          ∈ gapDemoStore.filter (fun m => m.conversationId == 0)
      ∧ (⟨1, 0, Sender.user, "a", 10100⟩ : MsgRec)
          ∉ (collectPages gapDemoStore 0 2 none 5).flatten := by
  refine ⟨rfl, by decide, by decide⟩

end SpurChat
